import Mathlib

/-!
Verification development for the CSH remote-filesystem server.

The definitions below are shallow embeddings of the Python sources:
`src/client/binary.py` (the tagged binary codec), `src/server/src/session.py`
(session TTL validation and the path sandbox), `src/server/src/connection.py`
(request routing, login, admin), `src/server/src/commands.py` (session
commands) and `src/server/src/server.py` (the users store).

Machine integers are modelled as `Nat`/`Int` with explicit `% 2^w` where the
source performs fixed-width conversions.  Byte strings are `List Nat` with
every element < 256.  Python `dict`s are association lists in insertion
order, which matches the (ordered) iteration semantics of CPython dicts.
Fallible code returns `Except Unit`.
-/

set_option maxHeartbeats 1000000

namespace CSH

/-! ### Little-endian byte encodings (`int.to_bytes` / `int.from_bytes`) -/
/-- `int.to_bytes(n, k, 'little', signed=False)` on an already-reduced value:
`k` little-endian bytes of `n` (the source only calls this with `n < 2^(8*k)`;
for two's complement the caller reduces the integer first). -/
def toLE : Nat → Nat → List Nat
  | 0, _ => []
  | k + 1, n => n % 256 :: toLE k (n / 256)

/-- `int.from_bytes(bs, 'little', signed=False)`. -/
def fromLEU : List Nat → Nat
  | [] => 0
  | b :: r => b % 256 + 256 * fromLEU r

/-- Python `int.bit_length()` (of the absolute value). -/
def natBitLen (n : Nat) : Nat := if n = 0 then 0 else Nat.log2 n + 1

/-- `int.bit_length()` for a Python integer (sign ignored). -/
def intBitLen (n : Int) : Nat := natBitLen n.natAbs

/-- `serialize_int` from `binary.py`:
`size = (data.bit_length() + 7) // 8 + 1` bytes of the little-endian signed
two's-complement representation. -/
def serialize_int (n : Int) : List Nat :=
  let size := (intBitLen n + 7) / 8 + 1
  toLE size ((n % ((2 : Int) ^ (8 * size))).toNat)

/-- `deserialize_int` from `binary.py`: `int.from_bytes(data, 'little',
signed=True)`; an empty byte string decodes to 0. -/
def deserialize_int (bs : List Nat) : Int :=
  let k := fromLEU bs
  let m := 2 ^ (8 * bs.length)
  if 2 * k < m then (k : Int) else (k : Int) - (m : Int)

/-! ### UTF-8 (`bytes(s, 'utf-8')` and `str(b, 'utf-8')` from `misc.py`'s
`ENCODING = 'utf-8'`).  Python strings are modelled as lists of Unicode
code points. -/
/-- UTF-8 encoding of one Unicode scalar value. -/
def utf8EncodeChar (c : Nat) : List Nat :=
  if c < 0x80 then [c]
  else if c < 0x800 then [0xC0 + c / 64, 0x80 + c % 64]
  else if c < 0x10000 then [0xE0 + c / 4096, 0x80 + c / 64 % 64, 0x80 + c % 64]
  else [0xF0 + c / 262144, 0x80 + c / 4096 % 64, 0x80 + c / 64 % 64, 0x80 + c % 64]

/-- `bytes(s, 'utf-8')`: concatenated UTF-8 encodings of the code points. -/
def utf8Encode : List Nat → List Nat
  | [] => []
  | c :: r => utf8EncodeChar c ++ utf8Encode r

/- `str(b, 'utf-8')`: strict UTF-8 decoding; rejects stray continuation
bytes, overlong forms, surrogates and out-of-range values, as CPython's
strict UTF-8 decoder does.  `utf8Dec2`/`utf8Dec3`/`utf8Dec4` consume the
continuation bytes of a 2-, 3- or 4-byte sequence whose lead byte is `b`. -/
mutual

def utf8Decode : List Nat → Option (List Nat)
  | [] => some []
  | b :: rest =>
    if b < 0x80 then (utf8Decode rest).map (fun cs => b :: cs)
    else if b < 0xC2 then none
    else if b < 0xE0 then utf8Dec2 b rest
    else if b < 0xF0 then utf8Dec3 b rest
    else if b < 0xF5 then utf8Dec4 b rest
    else none
termination_by l => 2 * l.length

def utf8Dec2 (b : Nat) : List Nat → Option (List Nat)
  | b1 :: r =>
    if 0x80 ≤ b1 ∧ b1 < 0xC0 then
      (utf8Decode r).map (fun cs => ((b - 0xC0) * 64 + (b1 - 0x80)) :: cs)
    else none
  | [] => none
termination_by l => 2 * l.length + 1

def utf8Dec3 (b : Nat) : List Nat → Option (List Nat)
  | b1 :: b2 :: r =>
    if (if b = 0xE0 then 0xA0 else 0x80) ≤ b1 ∧
        b1 < (if b = 0xED then 0xA0 else 0xC0) ∧ 0x80 ≤ b2 ∧ b2 < 0xC0 then
      (utf8Decode r).map (fun cs =>
        ((b - 0xE0) * 4096 + (b1 - 0x80) * 64 + (b2 - 0x80)) :: cs)
    else none
  | _ => none
termination_by l => 2 * l.length + 1

def utf8Dec4 (b : Nat) : List Nat → Option (List Nat)
  | b1 :: b2 :: b3 :: r =>
    if (if b = 0xF0 then 0x90 else 0x80) ≤ b1 ∧
        b1 < (if b = 0xF4 then 0x90 else 0xC0) ∧ 0x80 ≤ b2 ∧ b2 < 0xC0 ∧
        0x80 ≤ b3 ∧ b3 < 0xC0 then
      (utf8Decode r).map (fun cs =>
        ((b - 0xF0) * 262144 + (b1 - 0x80) * 4096 + (b2 - 0x80) * 64 +
          (b3 - 0x80)) :: cs)
    else none
  | _ => none
termination_by l => 2 * l.length + 1

end

/-- A valid Unicode scalar value (encodable code point: in range and not a
surrogate). -/
def validScalar (c : Nat) : Prop := c < 0x110000 ∧ (c < 0xD800 ∨ 0xE000 ≤ c)

instance (c : Nat) : Decidable (validScalar c) := by
  unfold validScalar
  infer_instance

/-! ### The ten protocol value kinds (`TYPE_MAP` in `binary.py`) -/
/-- A runtime value of the ten kinds the codec carries.  Floats are carried
by their 32-bit IEEE-754 pattern (what `struct.pack('f', ·)` writes);
strings are lists of Unicode code points; mappings are association lists
in CPython's (insertion-ordered) iteration order; sets are lists in the
set's iteration order. -/
inductive Value where
  | vint : Int → Value
  | vfloat : Nat → Value
  | vstr : List Nat → Value
  | vbytes : List Nat → Value
  | vlist : List Value → Value
  | vtuple : List Value → Value
  | vdict : List (Value × Value) → Value
  | vnull : Value
  | vbool : Bool → Value
  | vset : List Value → Value

/-- The `tag (1 byte) | payload length (8 bytes little-endian) | payload`
envelope that `serialize` wraps around every payload. -/
def enc (tag : Nat) (payload : List Nat) : List Nat :=
  tag :: (toLE 8 payload.length ++ payload)

mutual

/-- `serialize` from `binary.py`: dispatch on the value kind through
`TYPE_MAP`, wrap the serialized payload in the tag/length envelope. -/
def serializeVal : Value → List Nat
  | .vint n => enc 0 (serialize_int n)
  | .vfloat b => enc 1 (toLE 4 b)
  | .vstr cs => enc 2 (utf8Encode cs)
  | .vbytes bs => enc 3 bs
  | .vlist l => enc 4 (serializeList l)
  | .vtuple l => enc 5 (serializeList l)
  | .vdict ps => enc 6 (enc 4 (serializePairs ps))
  | .vnull => enc 7 [0]
  | .vbool b => enc 8 [if b then 1 else 0]
  | .vset l => enc 9 (serializeList l)

/-- `serialize_list`: concatenation of the serialized elements. -/
def serializeList : List Value → List Nat
  | [] => []
  | v :: r => serializeVal v ++ serializeList r

/-- The payload that `serialize_dict` produces under its own envelope:
`serialize(list(data.items()))`, a list of two-element tuples. -/
def serializePairs : List (Value × Value) → List Nat
  | [] => []
  | (k, v) :: r => enc 5 (serializeVal k ++ serializeVal v) ++ serializePairs r

end

/-- The `TYPE_MAP` tag of each value kind. -/
def tagOf : Value → Nat
  | .vint _ => 0
  | .vfloat _ => 1
  | .vstr _ => 2
  | .vbytes _ => 3
  | .vlist _ => 4
  | .vtuple _ => 5
  | .vdict _ => 6
  | .vnull => 7
  | .vbool _ => 8
  | .vset _ => 9

/-- The payload (serialization without the envelope) of each value kind. -/
def payloadOf : Value → List Nat
  | .vint n => serialize_int n
  | .vfloat b => toLE 4 b
  | .vstr cs => utf8Encode cs
  | .vbytes bs => bs
  | .vlist l => serializeList l
  | .vtuple l => serializeList l
  | .vdict ps => enc 4 (serializePairs ps)
  | .vnull => [0]
  | .vbool b => [if b then 1 else 0]
  | .vset l => serializeList l

/-! ### Python equality and hashability of decoded values

`deserialize_dict` builds a `dict` and `deserialize_set` a `set`, so key and
member identity follow Python `==` on hashable values: `True == 1` and
`False == 0`, everything else by structure.  (Cross-kind `int`/`float`
numeric equality and containers as `==` operands are not modelled; they can
only matter for adversarial streams no theorem below touches.) -/
mutual

def pyEq : Value → Value → Bool
  | .vint a, .vint b => a == b
  | .vint a, .vbool b => a == (if b then 1 else 0)
  | .vbool a, .vint b => (if a then (1 : Int) else 0) == b
  | .vbool a, .vbool b => a == b
  | .vfloat a, .vfloat b => a == b
  | .vstr a, .vstr b => a == b
  | .vbytes a, .vbytes b => a == b
  | .vnull, .vnull => true
  | .vtuple a, .vtuple b => pyEqList a b
  | .vlist a, .vlist b => pyEqList a b
  | _, _ => false

def pyEqList : List Value → List Value → Bool
  | [], [] => true
  | a :: ar, b :: br => pyEq a b && pyEqList ar br
  | _, _ => false

end

mutual

/-- Whether a decoded value is hashable in Python (usable as a `dict` key
or `set` member): lists, dicts and sets are not; tuples are iff their
elements are. -/
def isHashable : Value → Bool
  | .vlist _ => false
  | .vdict _ => false
  | .vset _ => false
  | .vtuple l => isHashableList l
  | _ => true

def isHashableList : List Value → Bool
  | [] => true
  | v :: r => isHashable v && isHashableList r

end

/-- CPython `d[k] = v`: if a key equal to `k` is present, its value is
replaced in place (the original key object is kept); otherwise the pair is
appended. -/
def dictSet : List (Value × Value) → Value → Value → List (Value × Value)
  | [], k, v => [(k, v)]
  | (k0, v0) :: r, k, v =>
    if pyEq k0 k then (k0, v) :: r else (k0, v0) :: dictSet r k v

/-- The loop of `deserialize_dict`: `for key, val in ditems:
deserialized_dict[key] = val`, raising on an unhashable key. -/
def dictFoldFrom (acc : List (Value × Value)) :
    List (Value × Value) → Except Unit (List (Value × Value))
  | [] => .ok acc
  | (k, v) :: r =>
    if isHashable k then dictFoldFrom (dictSet acc k v) r else .error ()

/-- Membership in a set under Python equality. -/
def setMem (l : List Value) (x : Value) : Bool := l.any (fun y => pyEq y x)

/-- `set(...)` construction from `deserialize_set`: inserts each element in
iteration order, keeping the first of any two equal elements, raising on an
unhashable element. -/
def setFoldFrom (acc : List Value) : List Value → Except Unit (List Value)
  | [] => .ok acc
  | x :: r =>
    if isHashable x then
      setFoldFrom (if setMem acc x then acc else acc ++ [x]) r
    else .error ()

/-- `for key, val in ditems` over one element: a two-element iterable
unpacks into its two items; anything else raises. -/
def iterAsPair : Value → Except Unit (Value × Value)
  | .vlist [a, b] => .ok (a, b)
  | .vtuple [a, b] => .ok (a, b)
  | .vset [a, b] => .ok (a, b)
  | .vstr [c1, c2] => .ok (.vstr [c1], .vstr [c2])
  | .vbytes [b1, b2] => .ok (.vint b1, .vint b2)
  | .vdict [(k1, _), (k2, _)] => .ok (k1, k2)
  | _ => .error ()

def iterPairs : List Value → Except Unit (List (Value × Value))
  | [] => .ok []
  | x :: r => do
    let p ← iterAsPair x
    let ps ← iterPairs r
    .ok (p :: ps)

/-- The iteration list of a decoded value (`for key, val in ditems` first
iterates `ditems` itself); non-iterable values raise. -/
def iterElems : Value → Except Unit (List Value)
  | .vlist l => .ok l
  | .vtuple l => .ok l
  | .vset l => .ok l
  | .vstr cs => .ok (cs.map (fun c => .vstr [c]))
  | .vbytes bs => .ok (bs.map .vint)
  | .vdict ps => .ok (ps.map (·.1))
  | _ => .error ()

/-! ### Deserialization (`deserialize`, `TAG_MAP`, `deserialize_list`)

Slicing is Python slicing: `data[i : i + n]` silently truncates at the end
of the buffer, so a declared length larger than the remaining bytes is NOT
an error for the sliceable kinds.  The fuel argument only bounds the
nesting depth of the recursion; `deserialize` below passes more fuel than
any input can consume, so fuel exhaustion is unreachable from the wrapper. -/
mutual

/-- One entry of `TAG_MAP`, applied to a payload: `deserialize_int`,
`deserialize_float`, …; an unknown tag raises (`KeyError` →
`DeserializingException`). -/
def dKind : Nat → Nat → List Nat → Except Unit Value
  | _, 0, p => .ok (.vint (deserialize_int p))
  | _, 1, p => if p.length = 4 then .ok (.vfloat (fromLEU p)) else .error ()
  | _, 2, p => (utf8Decode p).elim (.error ()) (fun cs => .ok (.vstr cs))
  | _, 3, p => .ok (.vbytes p)
  | f + 1, 4, p => (dList f p).map .vlist
  | f + 1, 5, p => (dList f p).map .vtuple
  | f + 1, 6, p => do
    let v ← dTop f p
    let items ← iterElems v
    let ps ← iterPairs items
    let d ← dictFoldFrom [] ps
    .ok (.vdict d)
  | _, 7, _ => .ok .vnull
  | _, 8, p => .ok (.vbool (p == [1]))
  | f + 1, 9, p => do
    let l ← dList f p
    let s ← setFoldFrom [] l
    .ok (.vset s)
  | _, _, _ => .error ()

/-- `deserialize_list`: repeatedly consume `tag | len8 | payload` until the
buffer is exhausted; each iteration advances by at least the tag byte. -/
def dList : Nat → List Nat → Except Unit (List Value)
  | _, [] => .ok []
  | 0, _ :: _ => .error ()
  | f + 1, t :: rest =>
    if t ≤ 9 then do
      let len := fromLEU (rest.take 8)
      let v ← dKind f t ((rest.drop 8).take len)
      let vs ← dList f ((rest.drop 8).drop len)
      .ok (v :: vs)
    else .error ()

/-- `deserialize`: read `data[0]` (tag), `data[1:9]` (length), slice the
payload and apply the tag's deserialization function. -/
def dTop : Nat → List Nat → Except Unit Value
  | _, [] => .error ()
  | 0, _ :: _ => .error ()
  | f + 1, _t :: rest =>
    dKind f _t ((rest.drop 8).take (fromLEU (rest.take 8)))

end

/-- `deserialize` with its canonical fuel: `length + 2` strictly exceeds
the recursion depth of any input, since every nesting level consumes at
least nine bytes of envelope. -/
def deserialize (bs : List Nat) : Except Unit Value := dTop (bs.length + 2) bs

/-! ### Well-formed values

A model value is well-formed when it denotes a value a Python process can
actually hold and serialize: float patterns fit in 32 bits, code points are
Unicode scalars, byte values fit in a byte, dict keys and set members are
hashable and pairwise distinct under Python equality (a real `dict`/`set`
never holds equal keys/members twice), and every payload length fits the
8-byte length field. -/
/-- Pairwise distinctness of dict keys under Python equality. -/
def keysDistinct : List (Value × Value) → Bool
  | [] => true
  | (k, _) :: r => r.all (fun p => !pyEq k p.1) && keysDistinct r

/-- Pairwise distinctness of set members under Python equality. -/
def elemsDistinct : List Value → Bool
  | [] => true
  | x :: r => r.all (fun y => !pyEq x y) && elemsDistinct r

mutual

def wfVal : Value → Bool
  | .vint n => decide ((serialize_int n).length < 2 ^ 64)
  | .vfloat b => decide (b < 2 ^ 32)
  | .vstr cs =>
    cs.all (fun c => decide (validScalar c)) &&
      decide ((utf8Encode cs).length < 2 ^ 64)
  | .vbytes bs => bs.all (fun b => decide (b < 256)) && decide (bs.length < 2 ^ 64)
  | .vlist l => wfList l && decide ((serializeList l).length < 2 ^ 64)
  | .vtuple l => wfList l && decide ((serializeList l).length < 2 ^ 64)
  | .vdict ps =>
    wfPairs ps && (ps.all (fun p => isHashable p.1) && keysDistinct ps) &&
      decide (9 + (serializePairs ps).length < 2 ^ 64)
  | .vnull => true
  | .vbool _ => true
  | .vset l =>
    wfList l && (isHashableList l && elemsDistinct l) &&
      decide ((serializeList l).length < 2 ^ 64)

def wfList : List Value → Bool
  | [] => true
  | v :: r => wfVal v && wfList r

def wfPairs : List (Value × Value) → Bool
  | [] => true
  | (k, v) :: r =>
    wfVal k && wfVal v &&
      decide ((serializeVal k).length + (serializeVal v).length < 2 ^ 64) &&
      wfPairs r

end

/-! Fuel accounting: `fuelV v` is a recursion depth sufficient for `dKind`
to decode the tag/payload of `v`; `fuelL` likewise for `dList` on a
serialized element list. -/
mutual

def fuelV : Value → Nat
  | .vlist l => 1 + fuelL l
  | .vtuple l => 1 + fuelL l
  | .vset l => 1 + fuelL l
  | .vdict ps => 3 + fuelP ps
  | _ => 0

def fuelL : List Value → Nat
  | [] => 0
  | v :: r => 1 + max (fuelV v) (fuelL r)

def fuelP : List (Value × Value) → Nat
  | [] => 0
  | (k, v) :: r => 1 + max (1 + (1 + max (fuelV k) (1 + max (fuelV v) 0))) (fuelP r)

end

/- A size measure under which the list of two-element tuples built by
`serialize_dict` is no larger than the dict itself, enabling the strong
induction of the round-trip proof. -/
mutual

def msV : Value → Nat
  | .vlist l => 1 + msL l
  | .vtuple l => 1 + msL l
  | .vset l => 1 + msL l
  | .vdict ps => 1 + msP ps
  | _ => 1

def msL : List Value → Nat
  | [] => 1
  | v :: r => 1 + msV v + msL r

def msP : List (Value × Value) → Nat
  | [] => 1
  | (k, v) :: r => 5 + msV k + msV v + msP r

end

/-! ### POSIX path model (`os.path` as used by `session.py`)

Paths are lists of characters; the server runs the POSIX semantics of
`normpath` / `join` / `abspath` (CPython `posixpath`). -/
/-- Does the path start with the given character? -/
def startsWithC (c : Char) : List Char → Bool
  | x :: _ => x == c
  | [] => false

/-- `str.split('/')`. -/
def splitSep : List Char → List (List Char)
  | [] => [[]]
  | c :: r =>
    if c = '/' then [] :: splitSep r
    else
      match splitSep r with
      | h :: t => (c :: h) :: t
      | [] => [[c]]

/-- The `initial_slashes` computation of `posixpath.normpath`: 0, 1, or 2
(exactly two leading slashes are preserved by POSIX). -/
def initialSlashes (p : List Char) : Nat :=
  if p.take 1 = ['/'] then
    if p.take 2 = ['/', '/'] ∧ ¬p.take 3 = ['/', '/', '/'] then 2 else 1
  else 0

/-- The component loop of `posixpath.normpath`: drop `''` and `'.'`,
resolve `'..'` against the accumulated components. -/
def normComps (slashes : Nat) : List (List Char) → List (List Char) → List (List Char)
  | acc, [] => acc
  | acc, comp :: rest =>
    if comp = [] ∨ comp = ['.'] then normComps slashes acc rest
    else if comp ≠ ['.', '.'] ∨ (slashes = 0 ∧ acc = []) ∨
        (acc ≠ [] ∧ acc.getLast? = some ['.', '.']) then
      normComps slashes (acc ++ [comp]) rest
    else if acc ≠ [] then normComps slashes acc.dropLast rest
    else normComps slashes acc rest

/-- `'/'.join(comps)`. -/
def joinComps : List (List Char) → List Char
  | [] => []
  | [x] => x
  | x :: r => x ++ '/' :: joinComps r

/-- `posixpath.normpath`. -/
def normpath (p : List Char) : List Char :=
  if p = [] then ['.']
  else
    let sl := initialSlashes p
    let res := List.replicate sl '/' ++ joinComps (normComps sl [] (splitSep p))
    if res = [] then ['.'] else res

/-- `posixpath.join` on two arguments. -/
def joinP (a b : List Char) : List Char :=
  if startsWithC '/' b then b
  else if a = [] ∨ a.getLast? = some '/' then a ++ b
  else a ++ '/' :: b

/-- `posixpath.abspath`: join against the process working directory when
relative, then normalize. -/
def abspathP (procCwd p : List Char) : List Char :=
  if startsWithC '/' p then normpath p else normpath (joinP procCwd p)

/-- `Session.get_full_path` (`session.py` lines 85-94): a path whose
normalization begins with a separator is re-rooted below the server path;
anything else resolves against the session's current directory. -/
def get_full_path (root procCwd cur p : List Char) : List Char :=
  if startsWithC '\\' (normpath p) || startsWithC '/' (normpath p) then
    abspathP procCwd (joinP root ((normpath p).drop 1))
  else
    abspathP procCwd (joinP root (joinP cur p))

/-- `Session.validate_path` (`session.py` lines 70-83): refuse unless the
resolved path is at least as long as the resolved server root and has it as
a string prefix. -/
def validate_path (root procCwd cur p : List Char) : Bool :=
  if (get_full_path root procCwd cur p).length < (abspathP procCwd root).length ∨
      ¬(abspathP procCwd root).isPrefixOf (get_full_path root procCwd cur p) then
    false
  else
    true

/-- Being inside the root on a component boundary: the root itself or a
path below it. -/
def insideB (rootAbs full : List Char) : Bool :=
  full == rootAbs || (rootAbs ++ ['/']).isPrefixOf full

/-! ### Sessions, the session table and the users store

(`session.py`, `server.py`.)  Python dicts are association lists; `del`
removes the (unique) binding of the key; assignment replaces in place or
appends.  The SHA-256 of `hash_password` is an external primitive and is a
parameter `h` of every definition that hashes. -/
/-- A `Session` object's state. -/
structure SessionRec where
  addr : String
  session_id : String
  username : String
  expire_after : Option Int
  expires : Option Int
  current_directory : List Char
deriving DecidableEq

/-- The in-memory session table `server.sessions`. -/
def Table := List (String × SessionRec)

instance : DecidableEq Table :=
  inferInstanceAs (DecidableEq (List (String × SessionRec)))

instance : Inhabited Table := ⟨[]⟩

def lookupT : Table → String → Option SessionRec
  | [], _ => none
  | (k, s) :: r, k' => if k = k' then some s else lookupT r k'

/-- `sessions[sid] = s`: replace in place or append. -/
def setT : Table → String → SessionRec → Table
  | [], k, s => [(k, s)]
  | (k0, s0) :: r, k, s => if k0 = k then (k0, s) :: r else (k0, s0) :: setT r k s

/-- `del sessions[sid]` (keys are unique in a dict). -/
def eraseT (t : Table) (k : String) : Table := t.filter (fun q => ¬q.1 = k)

/-- `Session.__init__`: `current_directory = normpath('')`; `expires` is set
only when `expire_after` is truthy (not `None` and not 0). -/
def Session.create (addr sid uname : String) (timestamp : Int)
    (expire_after : Option Int) : SessionRec :=
  { addr := addr, session_id := sid, username := uname,
    expire_after := expire_after,
    expires :=
      match expire_after with
      | some t => if t ≠ 0 then some (timestamp + t) else none
      | none => none,
    current_directory := normpath [] }

/-- `Session.validate` (`session.py` lines 46-68): absent from the table →
invalid; expired (strictly past `expires`) → remove from the table and
report invalid; otherwise renew `expires` to `now + expire_after` (the
session's own TTL) and report valid. -/
def Session.validate (now : Int) (sessions : Table) (s : SessionRec) :
    Bool × Table :=
  if (lookupT sessions s.session_id).isNone then (false, sessions)
  else
    match s.expires with
    | none => (true, sessions)
    | some e =>
      if now > e then (false, eraseT sessions s.session_id)
      else (true, setT sessions s.session_id
        { s with expires := some (now + s.expire_after.getD 0) })

/-- One user's persisted record (a JSON object: field name → value). -/
def UserDict := List (String × String)

instance : DecidableEq UserDict :=
  inferInstanceAs (DecidableEq (List (String × String)))

/-- The users store `server.users` (username → record). -/
def Users := List (String × UserDict)

instance : DecidableEq Users :=
  inferInstanceAs (DecidableEq (List (String × UserDict)))

def dictGetS : List (String × String) → String → Option String
  | [], _ => none
  | (k, v) :: r, k' => if k = k' then some v else dictGetS r k'

def dictSetS : List (String × String) → String → String → List (String × String)
  | [], k, v => [(k, v)]
  | (k0, v0) :: r, k, v => if k0 = k then (k0, v) :: r else (k0, v0) :: dictSetS r k v

/-- Python `dict.update`: assign each pair of the argument in order. -/
def dictUpdate (d m : List (String × String)) : List (String × String) :=
  m.foldl (fun acc q => dictSetS acc q.1 q.2) d

def usersGet : Users → String → Option UserDict
  | [], _ => none
  | (k, v) :: r, k' => if k = k' then some v else usersGet r k'

def usersSet : Users → String → UserDict → Users
  | [], k, v => [(k, v)]
  | (k0, v0) :: r, k, v => if k0 = k then (k0, v) :: r else (k0, v0) :: usersSet r k v

/-- `CSHServer.update_user` (`server.py` lines 353-366): if `to_modify`
contains `password`, replace that entry's value by its hash, then merge
`to_modify` into the user's record with `dict.update`.  A missing user
raises `KeyError` (surfaced as code 17 by the admin dispatcher), modelled
as `none`. -/
def CSHServer.update_user (h : String → String) (users : Users)
    (username : String) (to_modify : List (String × String)) : Option Users :=
  let to_modify2 :=
    match dictGetS to_modify "password" with
    | some p => dictSetS to_modify "password" (h p)
    | none => to_modify
  (usersGet users username).map (fun d => usersSet users username (dictUpdate d to_modify2))

/-- `CSHServer.create_user` (`server.py` lines 331-341). -/
def CSHServer.create_user (h : String → String) (users : Users)
    (username password permissions : String) : Users :=
  usersSet users username
    [("username", username), ("password_hash", h password),
     ("permissions", permissions)]

/-! ### The connection handler (`connection.py`)

`respond` writes one framed response and closes the socket, so the first
element of the response list is what the client receives; later `respond`
calls fail on the closed socket, are caught and logged inside `respond`,
and do not interrupt the handler.  The definitions below cover requests
that carry the fields the modelled branch reads (missing-field requests
take earlier non-returning branches of the same shape). -/
/-- The outcome of a login / admin handler: the codes of the responses it
attempted, in order, and the session table it leaves behind. -/
structure HandlerResult where
  responses : List Nat
  sessions : Table
deriving DecidableEq

/-- `Connection.log_in` (`connection.py` lines 220-286) for a request
carrying `username` and `password`.  None of the authentication error
responses is followed by a `return`: a missing user raises `KeyError` on
the next line (caught by `handle`, which answers code 11), and a wrong
password falls through into the session-creation code.  Only the
session-limit refusal returns. -/
def Connection.log_in (h : String → String) (users : Users) (sessions : Table)
    (uname pw : String) (expirationTime : Option Int) (sessionLimit : Option Nat)
    (allowChangeExpire : Bool) (defaultExpire : Option Int)
    (newSid : String) (now : Int) (ip : String) : HandlerResult :=
  match usersGet users uname with
  | none => { responses := [13, 11], sessions := sessions }
  | some d =>
    match dictGetS d "password_hash" with
    | none => { responses := [11], sessions := sessions }
    | some ph =>
      let authErr : List Nat := if ph = h pw then [] else [14]
      let cnt := (sessions.filter (fun q => q.2.username = uname)).length
      let overLimit : Bool :=
        match sessionLimit with
        | some lim => decide (lim ≠ 0 ∧ cnt ≥ lim)
        | none => false
      if overLimit then { responses := authErr ++ [24], sessions := sessions }
      else
        let expiration :=
          if allowChangeExpire then
            match expirationTime with
            | some e => some e
            | none => defaultExpire
          else defaultExpire
        { responses := authErr ++ [0],
          sessions := setT sessions newSid
            (Session.create ip newSid uname now expiration) }

/-- `Connection.admin` (`connection.py` lines 296-364) for a request
carrying `username`, `password`, `admin_command = 5` (`clear_sessions`) and
`args = {}`.  As in `log_in`, the code-13/14 responses do not return, so
the admin command runs regardless; `ClearSessionsCommand.preform` empties
the session table and finishes with code 0. -/
def Connection.admin_clear_sessions (h : String → String) (users : Users)
    (sessions : Table) (uname pw : String) : HandlerResult :=
  match usersGet users uname with
  | none => { responses := [13, 11], sessions := sessions }
  | some d =>
    match dictGetS d "password_hash" with
    | none => { responses := [11], sessions := sessions }
    | some ph =>
      let authErr : List Nat := if ph = h pw then [] else [14]
      { responses := authErr ++ [0], sessions := [] }

/-- What the session-command routing of `Connection.handle` (lines 141-167)
does with a request whose `command` is an integer and that carries
`username` and `session_id`. -/
inductive RouteResult where
  | reject : Nat → RouteResult
  | proceed : SessionRec → RouteResult
deriving DecidableEq

/-- `Connection.handle`, session-command branch: unknown IDs are code 10; a
session ID absent from the table is code 16 ("Invalid session ID"); a
username or peer-IP mismatch against the stored session is code 1; only
then is the command object built and run. -/
def Connection.handle_session_route (cmdId : Int) (uname sid : String)
    (sessions : Table) (ip : String) : RouteResult :=
  if ¬(0 ≤ cmdId ∧ cmdId ≤ 13) then .reject 10
  else
    match lookupT sessions sid with
    | none => .reject 16
    | some s =>
      if ¬s.username = uname ∨ ¬s.addr = ip then .reject 1
      else .proceed s

/-- `BaseCommand.finish`: assign `self.data` (last write wins). -/
def finishData (_st : Option Nat) (code : Nat) : Option Nat := some code

/-- `LogOutCommand.preform` (`commands.py` lines 60-79).  `delFails` is
whether `del sessions[session_id]` raises (e.g. a concurrent removal); the
`except` branch assigns the code-2 result but does not return, and the
unconditional `finish({'code': 0})` then overwrites it. -/
def LogOutCommand.preform (now : Int) (sessions : Table) (s : SessionRec)
    (delFails : Bool) : Option Nat × Table :=
  let v := Session.validate now sessions s
  if v.1 = false then (finishData none 1, v.2)
  else
    let dataTry := if delFails then finishData none 2 else none
    let t2 := if delFails then v.2 else eraseT v.2 s.session_id
    (finishData dataTry 0, t2)

/-- A filesystem effect requested by a command. -/
inductive FsOp where
  | rename : List Char → List Char → FsOp
deriving DecidableEq

/-- `RenameCommand.preform` (`commands.py` lines 313-354): validate the
session, check `permissions in ('w','a')`, sandbox-validate and
existence-check `path` — and then call `os.rename(get_full_path(path),
new_name)` with the raw client-supplied `new_name`.  `fsExists` abstracts
`os.path.exists`; the success path returns code 0 together with the
syscall's argument pair.  (A username absent from the users store would
raise and surface as code 17; the theorems below supply the user.) -/
def RenameCommand.preform (now : Int) (sessions : Table) (s : SessionRec)
    (users : Users) (root procCwd : List Char) (path new_name : List Char)
    (fsExists : List Char → Bool) : Nat × Option FsOp × Table :=
  let v := Session.validate now sessions s
  if v.1 = false then (1, none, v.2)
  else
    let perm := (usersGet users s.username).bind (fun d => dictGetS d "permissions")
    if ¬(perm = some "w" ∨ perm = some "a") then (19, none, v.2)
    else if ¬(validate_path root procCwd s.current_directory path = true ∧
        fsExists (get_full_path root procCwd s.current_directory path) = true) then
      (18, none, v.2)
    else
      (0, some (.rename (get_full_path root procCwd s.current_directory path)
        new_name), v.2)

/-! Concrete fixtures for witnesses and counterexamples. -/
/-- A stand-in for the external SHA-256 hex digest in concrete witnesses. -/
def wHash : String → String := fun _ => "HASH"

def wUserRec : UserDict :=
  [("username", "u"), ("password_hash", "X"), ("permissions", "w")]

def wUsers : Users := [("u", wUserRec)]

def wSession : SessionRec :=
  { addr := "1.2.3.4", session_id := "S", username := "u",
    expire_after := none, expires := none, current_directory := ".".data }

def wSessionTTL : SessionRec :=
  { addr := "1.2.3.4", session_id := "S", username := "u",
    expire_after := some 50, expires := some 100,
    current_directory := ".".data }

theorem toLE_length (k n : Nat) : (toLE k n).length = k := by
  induction k generalizing n with
  | zero => rfl
  | succ k ih => simp [toLE, ih]

theorem fromLEU_toLE (k n : Nat) (h : n < 2 ^ (8 * k)) : fromLEU (toLE k n) = n := by
  induction k generalizing n with
  | zero =>
    simp only [toLE, fromLEU]
    omega
  | succ k ih =>
    have hlt : n / 256 < 2 ^ (8 * k) := by
      have h2 : (2 : Nat) ^ (8 * (k + 1)) = 2 ^ (8 * k) * 256 := by ring
      rw [h2] at h
      exact Nat.div_lt_of_lt_mul (by omega)
    simp only [toLE, fromLEU, ih _ hlt]
    omega

theorem natBitLen_lt (n : Nat) : n < 2 ^ natBitLen n := by
  unfold natBitLen
  split
  · omega
  · exact Nat.lt_log2_self

/-- `serialize_int` always produces `(bitlen + 7)/8 + 1` bytes. -/
theorem serialize_int_length (n : Int) :
    (serialize_int n).length = (intBitLen n + 7) / 8 + 1 := by
  simp [serialize_int, toLE_length]

/-- The signed little-endian round-trip of the integer codec. -/
theorem deserialize_serialize_int (n : Int) :
    deserialize_int (serialize_int n) = n := by
  simp only [serialize_int, deserialize_int, toLE_length]
  set s := (intBitLen n + 7) / 8 + 1 with hs
  have habs : n.natAbs < 2 ^ (8 * s - 1) := by
    have h1 : n.natAbs < 2 ^ intBitLen n := natBitLen_lt n.natAbs
    have h2 : intBitLen n ≤ 8 * s - 1 := by omega
    exact lt_of_lt_of_le h1 (Nat.pow_le_pow_right (by omega) h2)
  have hpow : (2 : Nat) ^ (8 * s - 1) * 2 = 2 ^ (8 * s) := by
    have h8 : 8 * s - 1 + 1 = 8 * s := by omega
    rw [← pow_succ, h8]
  have hm : ((2 : Int) ^ (8 * s)) = ((2 ^ (8 * s) : Nat) : Int) := by push_cast; ring
  rw [hm]
  set m : Nat := 2 ^ (8 * s) with hmdef
  have hmpos : 0 < m := by positivity
  have h0 : (0 : Int) ≤ n % (m : Int) := Int.emod_nonneg n (by exact_mod_cast hmpos.ne')
  have h1 : n % (m : Int) < (m : Int) := Int.emod_lt_of_pos n (by exact_mod_cast hmpos)
  have hnm : (n % ((m : Nat) : Int)).toNat < m := by omega
  rw [fromLEU_toLE _ _ (hmdef ▸ hnm)]
  have hc : 0 < (2 : Nat) ^ (8 * s - 1) := by positivity
  have hcases : n % (m : Int) = n ∨ n % (m : Int) = n + m := by
    rcases Int.le_or_lt 0 n with hpos | hneg
    · left
      exact Int.emod_eq_of_lt hpos (by omega)
    · right
      have heq : (n + (m : Int)) % (m : Int) = n % (m : Int) := by
        have h1 : n + (m : Int) = n + (m : Int) * 1 := by ring
        rw [h1, Int.add_mul_emod_self_left]
      have hsmall : (n + (m : Int)) % (m : Int) = n + (m : Int) :=
        Int.emod_eq_of_lt (by omega) (by omega)
      omega
  split <;> omega

theorem utf8Decode_encodeChar_append (c : Nat) (rest : List Nat)
    (h : validScalar c) :
    utf8Decode (utf8EncodeChar c ++ rest) =
      (utf8Decode rest).map (fun cs => c :: cs) := by
  obtain ⟨h1, h2⟩ := h
  unfold utf8EncodeChar
  by_cases hc1 : c < 0x80
  · rw [if_pos hc1]
    show utf8Decode (c :: rest) = _
    rw [utf8Decode, if_pos hc1]
  · rw [if_neg hc1]
    by_cases hc2 : c < 0x800
    · rw [if_pos hc2]
      show utf8Decode ((0xC0 + c / 64) :: (0x80 + c % 64) :: rest) = _
      rw [utf8Decode, if_neg (by omega), if_neg (by omega), if_pos (by omega),
        utf8Dec2, if_pos ⟨by omega, by omega⟩]
      have hval : (0xC0 + c / 64 - 0xC0) * 64 + (0x80 + c % 64 - 0x80) = c := by
        omega
      rw [hval]
    · rw [if_neg hc2]
      by_cases hc3 : c < 0x10000
      · rw [if_pos hc3]
        show utf8Decode
          ((0xE0 + c / 4096) :: (0x80 + c / 64 % 64) :: (0x80 + c % 64) :: rest) = _
        rw [utf8Decode, if_neg (by omega), if_neg (by omega), if_neg (by omega),
          if_pos (by omega), utf8Dec3]
        have hcond : (if 0xE0 + c / 4096 = 0xE0 then 0xA0 else 0x80) ≤
            0x80 + c / 64 % 64 ∧
            0x80 + c / 64 % 64 <
              (if 0xE0 + c / 4096 = 0xED then 0xA0 else 0xC0) ∧
            0x80 ≤ 0x80 + c % 64 ∧ 0x80 + c % 64 < 0xC0 := by
          refine ⟨?_, ?_, by omega, by omega⟩
          · split <;> omega
          · split <;> omega
        rw [if_pos hcond]
        have hval : (0xE0 + c / 4096 - 0xE0) * 4096 +
            (0x80 + c / 64 % 64 - 0x80) * 64 + (0x80 + c % 64 - 0x80) = c := by
          omega
        rw [hval]
      · rw [if_neg hc3]
        show utf8Decode ((0xF0 + c / 262144) :: (0x80 + c / 4096 % 64) ::
          (0x80 + c / 64 % 64) :: (0x80 + c % 64) :: rest) = _
        rw [utf8Decode, if_neg (by omega), if_neg (by omega), if_neg (by omega),
          if_neg (by omega), if_pos (by omega), utf8Dec4]
        have hcond : (if 0xF0 + c / 262144 = 0xF0 then 0x90 else 0x80) ≤
            0x80 + c / 4096 % 64 ∧
            0x80 + c / 4096 % 64 <
              (if 0xF0 + c / 262144 = 0xF4 then 0x90 else 0xC0) ∧
            0x80 ≤ 0x80 + c / 64 % 64 ∧ 0x80 + c / 64 % 64 < 0xC0 ∧
            0x80 ≤ 0x80 + c % 64 ∧ 0x80 + c % 64 < 0xC0 := by
          refine ⟨?_, ?_, by omega, by omega, by omega, by omega⟩
          · split <;> omega
          · split <;> omega
        rw [if_pos hcond]
        have hval : (0xF0 + c / 262144 - 0xF0) * 262144 +
            (0x80 + c / 4096 % 64 - 0x80) * 4096 +
            (0x80 + c / 64 % 64 - 0x80) * 64 + (0x80 + c % 64 - 0x80) = c := by
          omega
        rw [hval]

/-- UTF-8 round-trip for any list of valid scalar values. -/
theorem utf8Decode_encode (cs : List Nat) (h : ∀ c ∈ cs, validScalar c) :
    utf8Decode (utf8Encode cs) = some cs := by
  induction cs with
  | nil =>
    rw [utf8Encode, utf8Decode]
  | cons c r ih =>
    rw [utf8Encode, utf8Decode_encodeChar_append c _ (h c (by simp)),
      ih (fun x hx => h x (by simp [hx]))]
    rfl

theorem enc_length (tag : Nat) (payload : List Nat) :
    (enc tag payload).length = 9 + payload.length := by
  simp [enc, toLE_length]
  omega

theorem serializeVal_eq (v : Value) : serializeVal v = enc (tagOf v) (payloadOf v) := by
  cases v <;> rfl

theorem tagOf_le (v : Value) : tagOf v ≤ 9 := by
  cases v <;> simp [tagOf]

theorem serializeVal_length (v : Value) :
    (serializeVal v).length = 9 + (payloadOf v).length := by
  rw [serializeVal_eq, enc_length]

theorem serializePairs_eq (ps : List (Value × Value)) :
    serializePairs ps =
      serializeList (ps.map (fun p => Value.vtuple [p.1, p.2])) := by
  induction ps with
  | nil => rfl
  | cons p r ih =>
    obtain ⟨k, v⟩ := p
    simp only [serializePairs, serializeList, List.map_cons, ih]
    congr 1
    show enc 5 (serializeVal k ++ serializeVal v) = enc 5 (serializeList [k, v])
    simp [serializeList]

theorem fuelP_eq (ps : List (Value × Value)) :
    fuelP ps = fuelL (ps.map (fun p => Value.vtuple [p.1, p.2])) := by
  induction ps with
  | nil => rfl
  | cons p r ih =>
    obtain ⟨k, v⟩ := p
    simp only [fuelP, List.map_cons, fuelL, fuelV, ih]

theorem msP_eq (ps : List (Value × Value)) :
    msP ps = msL (ps.map (fun p => Value.vtuple [p.1, p.2])) := by
  induction ps with
  | nil => rfl
  | cons p r ih =>
    obtain ⟨k, v⟩ := p
    simp only [msP, List.map_cons, msL, msV, ih]
    omega

/-! ### Round-trip: decoding a serialized envelope -/
/-- Reading the envelope of `enc tag payload` at the top level hands the
payload to the tag's `TAG_MAP` function. -/
theorem dTop_enc (f tag : Nat) (p : List Nat) (hp : p.length < 2 ^ 64) :
    dTop (f + 1) (enc tag p) = dKind f tag p := by
  show dTop (f + 1) (tag :: (toLE 8 p.length ++ p)) = dKind f tag p
  rw [dTop]
  rw [List.take_left' (toLE_length 8 p.length), fromLEU_toLE 8 p.length (by simpa using hp),
    List.drop_left' (toLE_length 8 p.length), List.take_length]

/-- One iteration of the `deserialize_list` loop over a well-delimited
element. -/
theorem dList_step (f tag : Nat) (p rest : List Nat) (ht : tag ≤ 9)
    (hp : p.length < 2 ^ 64) :
    dList (f + 1) (enc tag p ++ rest) =
      (do
        let v ← dKind f tag p
        let vs ← dList f rest
        pure (v :: vs)) := by
  show dList (f + 1) (tag :: ((toLE 8 p.length ++ p) ++ rest)) = _
  rw [List.append_assoc, dList, if_pos ht]
  rw [List.take_left' (toLE_length 8 p.length), fromLEU_toLE 8 p.length (by simpa using hp),
    List.drop_left' (toLE_length 8 p.length)]
  simp only [List.take_left, List.drop_left]
  rfl

/-- Updating a dict with a key equal to none of the present keys appends. -/
theorem dictSet_append (k v : Value) :
    ∀ acc, (∀ p ∈ acc, pyEq p.1 k = false) →
    dictSet acc k v = acc ++ [(k, v)] := by
  intro acc
  induction acc with
  | nil => intro _; rfl
  | cons a r ih =>
    intro h
    obtain ⟨k0, v0⟩ := a
    have h0 : pyEq k0 k = false := by simpa using h (k0, v0) (by simp)
    rw [dictSet, if_neg (by simp [h0]), ih (fun p hp => h p (by simp [hp]))]
    rfl

/-- Folding pairwise-distinct hashable pairs into a dict keeps them all, in
order. -/
theorem dictFoldFrom_append (ps : List (Value × Value)) :
    ∀ acc, (∀ p ∈ ps, isHashable p.1 = true) → keysDistinct ps = true →
    (∀ p ∈ ps, ∀ a ∈ acc, pyEq a.1 p.1 = false) →
    dictFoldFrom acc ps = .ok (acc ++ ps) := by
  induction ps with
  | nil =>
    intro acc _ _ _
    simp [dictFoldFrom]
  | cons p r ih =>
    intro acc hh hd hx
    obtain ⟨k, v⟩ := p
    rw [dictFoldFrom, if_pos (hh (k, v) (by simp)),
      dictSet_append k v acc (fun a ha => hx (k, v) (by simp) a ha)]
    rw [keysDistinct] at hd
    simp only [Bool.and_eq_true, List.all_eq_true] at hd
    have hx' : ∀ q ∈ r, ∀ a ∈ acc ++ [(k, v)], pyEq a.1 q.1 = false := by
      intro q hq a ha
      rcases List.mem_append.mp ha with h1 | h2
      · exact hx q (by simp [hq]) a h1
      · have hk : a = (k, v) := by simpa using h2
        subst hk
        simpa using hd.1 q hq
    rw [ih (acc ++ [(k, v)]) (fun q hq => hh q (by simp [hq])) hd.2 hx']
    simp

/-- A value equal to no member of the set is not a member. -/
theorem setMem_false (acc : List Value) (x : Value)
    (h : ∀ y ∈ acc, pyEq y x = false) : setMem acc x = false := by
  simp only [setMem, List.any_eq_false]
  intro y hy
  simp [h y hy]

/-- Building a set from pairwise-distinct hashable elements keeps them all,
in order. -/
theorem setFoldFrom_append (l : List Value) :
    ∀ acc, (∀ x ∈ l, isHashable x = true) → elemsDistinct l = true →
    (∀ x ∈ l, ∀ y ∈ acc, pyEq y x = false) →
    setFoldFrom acc l = .ok (acc ++ l) := by
  induction l with
  | nil =>
    intro acc _ _ _
    simp [setFoldFrom]
  | cons x r ih =>
    intro acc hh hd hx
    rw [setFoldFrom, if_pos (hh x (by simp)),
      if_neg (by simp [setMem_false acc x (fun y hy => hx x (by simp) y hy)])]
    rw [elemsDistinct] at hd
    simp only [Bool.and_eq_true, List.all_eq_true] at hd
    have hx' : ∀ q ∈ r, ∀ y ∈ acc ++ [x], pyEq y q = false := by
      intro q hq y hy
      rcases List.mem_append.mp hy with h1 | h2
      · exact hx q (by simp [hq]) y h1
      · have hk : y = x := by simpa using h2
        subst hk
        simpa using hd.1 q hq
    rw [ih (acc ++ [x]) (fun q hq => hh q (by simp [hq])) hd.2 hx']
    simp

/-- Unpacking the list of two-element tuples written by `serialize_dict`
recovers the original pairs. -/
theorem iterPairs_map (ps : List (Value × Value)) :
    iterPairs (ps.map (fun p => Value.vtuple [p.1, p.2])) = .ok ps := by
  induction ps with
  | nil => rfl
  | cons p r ih =>
    obtain ⟨k, v⟩ := p
    rw [List.map_cons, iterPairs]
    show (do
      let p ← iterAsPair (Value.vtuple [k, v])
      let ps ← iterPairs (r.map (fun p : Value × Value => Value.vtuple [p.1, p.2]))
      Except.ok (p :: ps)) = _
    rw [ih]
    rfl

theorem msV_pos (v : Value) : 1 ≤ msV v := by
  cases v <;> simp only [msV] <;> omega

theorem msL_pos (l : List Value) : 1 ≤ msL l := by
  cases l <;> simp only [msL] <;> omega

/-- The serialization of the two-element tuples built by `serialize_dict`
is well-formed whenever the pairs are. -/
theorem wfList_map_tuples (ps : List (Value × Value)) (h : wfPairs ps = true) :
    wfList (ps.map (fun p => Value.vtuple [p.1, p.2])) = true := by
  induction ps with
  | nil => rfl
  | cons p r ih =>
    obtain ⟨k, v⟩ := p
    rw [wfPairs] at h
    simp only [Bool.and_eq_true, decide_eq_true_eq] at h
    simp only [List.map_cons, wfList, wfVal, serializeList, Bool.and_eq_true,
      decide_eq_true_eq, List.length_append, List.length_nil]
    exact ⟨⟨⟨h.1.1.1, h.1.1.2, trivial⟩, by omega⟩, ih h.2⟩

/-- Fuel accounting: the fuel a value needs is amply covered by the length
of its serialization (each nesting level adds a nine-byte envelope). -/
theorem fuel_bound (N : Nat) :
    (∀ v, msV v ≤ N → fuelV v + 8 ≤ (serializeVal v).length) ∧
    (∀ l, msL l ≤ N → fuelL l ≤ (serializeList l).length) := by
  induction N using Nat.strong_induction_on with
  | _ N IH =>
    constructor
    · intro v hv
      cases v with
      | vlist l =>
        have hm : msL l < N := by
          have h1 : msV (Value.vlist l) = 1 + msL l := rfl
          omega
        have h2 := (IH (msL l) hm).2 l le_rfl
        have h3 := serializeVal_length (Value.vlist l)
        simp only [fuelV, payloadOf] at h3 ⊢
        omega
      | vtuple l =>
        have hm : msL l < N := by
          have h1 : msV (Value.vtuple l) = 1 + msL l := rfl
          omega
        have h2 := (IH (msL l) hm).2 l le_rfl
        have h3 := serializeVal_length (Value.vtuple l)
        simp only [fuelV, payloadOf] at h3 ⊢
        omega
      | vset l =>
        have hm : msL l < N := by
          have h1 : msV (Value.vset l) = 1 + msL l := rfl
          omega
        have h2 := (IH (msL l) hm).2 l le_rfl
        have h3 := serializeVal_length (Value.vset l)
        simp only [fuelV, payloadOf] at h3 ⊢
        omega
      | vdict ps =>
        have hm : msL (ps.map (fun p => Value.vtuple [p.1, p.2])) < N := by
          have h1 : msV (Value.vdict ps) = 1 + msP ps := rfl
          have h2 := msP_eq ps
          omega
        have h2 := (IH _ hm).2 _ le_rfl
        have h3 := serializeVal_length (Value.vdict ps)
        have h4 := enc_length 4 (serializePairs ps)
        have h6 : (serializePairs ps).length =
            (serializeList (ps.map (fun p => Value.vtuple [p.1, p.2]))).length := by
          rw [serializePairs_eq]
        simp only [fuelV, payloadOf] at h3 ⊢
        rw [fuelP_eq]
        omega
      | vint n =>
        have h3 := serializeVal_length (Value.vint n)
        simp only [fuelV]
        omega
      | vfloat b =>
        have h3 := serializeVal_length (Value.vfloat b)
        simp only [fuelV]
        omega
      | vstr cs =>
        have h3 := serializeVal_length (Value.vstr cs)
        simp only [fuelV]
        omega
      | vbytes bs =>
        have h3 := serializeVal_length (Value.vbytes bs)
        simp only [fuelV]
        omega
      | vnull =>
        have h3 := serializeVal_length Value.vnull
        simp only [fuelV]
        omega
      | vbool b =>
        have h3 := serializeVal_length (Value.vbool b)
        simp only [fuelV]
        omega
    · intro l hl
      cases l with
      | nil =>
        simp [fuelL, serializeList]
      | cons v r =>
        have hm1 : msV v < N := by
          have h1 : msL (v :: r) = 1 + msV v + msL r := rfl
          have h2 : 1 ≤ msL r := msL_pos r
          omega
        have hm2 : msL r < N := by
          have h1 : msL (v :: r) = 1 + msV v + msL r := rfl
          have h2 : 1 ≤ msV v := msV_pos v
          omega
        have h2 := (IH (msV v) hm1).1 v le_rfl
        have h3 := (IH (msL r) hm2).2 r le_rfl
        simp only [fuelL, serializeList, List.length_append]
        omega

theorem isHashableList_mem (l : List Value) (h : isHashableList l = true) :
    ∀ x ∈ l, isHashable x = true := by
  induction l with
  | nil => simp
  | cons a r ih =>
    rw [isHashableList] at h
    simp only [Bool.and_eq_true] at h
    intro x hx
    rcases List.mem_cons.mp hx with h6 | h6
    · exact h6 ▸ h.1
    · exact ih h.2 x h6

/-- The payload of a well-formed value fits in the 8-byte length field. -/
theorem payloadOf_length_lt (v : Value) (hwf : wfVal v = true) :
    (payloadOf v).length < 2 ^ 64 := by
  cases v with
  | vint n => simpa [wfVal, payloadOf] using hwf
  | vfloat b => simp [payloadOf, toLE_length]
  | vstr cs =>
    simp only [wfVal, Bool.and_eq_true, decide_eq_true_eq] at hwf
    simpa [payloadOf] using hwf.2
  | vbytes bs =>
    simp only [wfVal, Bool.and_eq_true, decide_eq_true_eq] at hwf
    simpa [payloadOf] using hwf.2
  | vlist l =>
    simp only [wfVal, Bool.and_eq_true, decide_eq_true_eq] at hwf
    simpa [payloadOf] using hwf.2
  | vtuple l =>
    simp only [wfVal, Bool.and_eq_true, decide_eq_true_eq] at hwf
    simpa [payloadOf] using hwf.2
  | vdict ps =>
    simp only [wfVal, Bool.and_eq_true, decide_eq_true_eq] at hwf
    simp only [payloadOf, enc_length]
    omega
  | vnull => simp [payloadOf]
  | vbool b => simp [payloadOf]
  | vset l =>
    simp only [wfVal, Bool.and_eq_true, decide_eq_true_eq] at hwf
    simpa [payloadOf] using hwf.2

/-- The round-trip of the codec, by strong induction on the size measure:
every tag function decodes the payload it serialized, and the list loop
decodes a serialized element list. -/
theorem roundtrip_main (N : Nat) :
    (∀ v, msV v ≤ N → wfVal v = true → ∀ f, fuelV v ≤ f →
      dKind f (tagOf v) (payloadOf v) = .ok v) ∧
    (∀ l, msL l ≤ N → wfList l = true → ∀ f, fuelL l ≤ f →
      dList f (serializeList l) = .ok l) := by
  induction N using Nat.strong_induction_on with
  | _ N IH =>
    constructor
    · intro v hv hwf f hf
      cases v with
      | vint n =>
        simp [tagOf, payloadOf, dKind, deserialize_serialize_int]
      | vfloat b =>
        have hb : b < 2 ^ 32 := by simpa [wfVal] using hwf
        have h4 : fromLEU (toLE 4 b) = b := fromLEU_toLE 4 b (by norm_num; omega)
        simp [tagOf, payloadOf, dKind, toLE_length, h4]
      | vstr cs =>
        simp only [wfVal, Bool.and_eq_true, List.all_eq_true, decide_eq_true_eq] at hwf
        have hdec := utf8Decode_encode cs (fun c hc => hwf.1 c hc)
        simp [tagOf, payloadOf, dKind, hdec]
      | vbytes bs =>
        simp [tagOf, payloadOf, dKind]
      | vnull =>
        simp [tagOf, payloadOf, dKind]
      | vbool b =>
        cases b <;> simp [tagOf, payloadOf, dKind]
      | vlist l =>
        have hf1 : 1 + fuelL l ≤ f := by simpa [fuelV] using hf
        obtain ⟨f', rfl⟩ : ∃ f', f = f' + 1 := ⟨f - 1, by omega⟩
        have hm : msL l < N := by
          have h1 : msV (Value.vlist l) = 1 + msL l := rfl
          omega
        have hwl : wfList l = true := by
          simp only [wfVal, Bool.and_eq_true] at hwf
          exact hwf.1
        have hrec := (IH (msL l) hm).2 l le_rfl hwl f' (by omega)
        show dKind (f' + 1) 4 (serializeList l) = Except.ok (Value.vlist l)
        simp only [dKind]
        rw [hrec]
        rfl
      | vtuple l =>
        have hf1 : 1 + fuelL l ≤ f := by simpa [fuelV] using hf
        obtain ⟨f', rfl⟩ : ∃ f', f = f' + 1 := ⟨f - 1, by omega⟩
        have hm : msL l < N := by
          have h1 : msV (Value.vtuple l) = 1 + msL l := rfl
          omega
        have hwl : wfList l = true := by
          simp only [wfVal, Bool.and_eq_true] at hwf
          exact hwf.1
        have hrec := (IH (msL l) hm).2 l le_rfl hwl f' (by omega)
        show dKind (f' + 1) 5 (serializeList l) = Except.ok (Value.vtuple l)
        simp only [dKind]
        rw [hrec]
        rfl
      | vset l =>
        have hf1 : 1 + fuelL l ≤ f := by simpa [fuelV] using hf
        obtain ⟨f', rfl⟩ : ∃ f', f = f' + 1 := ⟨f - 1, by omega⟩
        have hm : msL l < N := by
          have h1 : msV (Value.vset l) = 1 + msL l := rfl
          omega
        simp only [wfVal, Bool.and_eq_true, List.all_eq_true] at hwf
        have hrec := (IH (msL l) hm).2 l le_rfl hwf.1.1 f' (by omega)
        have hhash := isHashableList_mem l hwf.1.2.1
        have hfold := setFoldFrom_append l [] hhash hwf.1.2.2 (by simp)
        show dKind (f' + 1) 9 (serializeList l) = Except.ok (Value.vset l)
        simp only [dKind]
        rw [hrec]
        show (do
          let s ← setFoldFrom [] l
          Except.ok (Value.vset s)) = Except.ok (Value.vset l)
        rw [hfold]
        rfl
      | vdict ps =>
        have hf1 : 3 + fuelP ps ≤ f := by simpa [fuelV] using hf
        obtain ⟨f1, rfl⟩ : ∃ f', f = f' + 1 := ⟨f - 1, by omega⟩
        obtain ⟨f2, rfl⟩ : ∃ f', f1 = f' + 1 := ⟨f1 - 1, by omega⟩
        obtain ⟨f3, rfl⟩ : ∃ f', f2 = f' + 1 := ⟨f2 - 1, by omega⟩
        simp only [wfVal, Bool.and_eq_true, List.all_eq_true, decide_eq_true_eq] at hwf
        have hlen : (serializePairs ps).length < 2 ^ 64 := by omega
        have hm : msL (ps.map (fun p => Value.vtuple [p.1, p.2])) < N := by
          have h1 : msV (Value.vdict ps) = 1 + msP ps := rfl
          have h2 := msP_eq ps
          omega
        have hrec := (IH _ hm).2 _ le_rfl (wfList_map_tuples ps hwf.1.1) f3
          (by rw [← fuelP_eq]; omega)
        have hfold := dictFoldFrom_append ps [] (fun p hp => hwf.1.2.1 p hp)
          hwf.1.2.2 (by simp)
        show dKind (f3 + 1 + 1 + 1) 6 (enc 4 (serializePairs ps)) = _
        rw [dKind]
        rw [dTop_enc (f3 + 1) 4 (serializePairs ps) hlen]
        rw [dKind, serializePairs_eq, hrec]
        show (do
          let ps2 ← iterPairs (ps.map (fun p : Value × Value => Value.vtuple [p.1, p.2]))
          let d ← dictFoldFrom [] ps2
          Except.ok (Value.vdict d)) = Except.ok (Value.vdict ps)
        rw [iterPairs_map]
        show (do
          let d ← dictFoldFrom [] ps
          Except.ok (Value.vdict d)) = Except.ok (Value.vdict ps)
        rw [hfold]
        rfl
    · intro l hl hwf f hf
      cases l with
      | nil =>
        simp [serializeList, dList]
      | cons v r =>
        simp only [wfList, Bool.and_eq_true] at hwf
        have hf1 : 1 + max (fuelV v) (fuelL r) ≤ f := by simpa [fuelL] using hf
        obtain ⟨f', rfl⟩ : ∃ f', f = f' + 1 := ⟨f - 1, by omega⟩
        have hm1 : msV v < N := by
          have h1 : msL (v :: r) = 1 + msV v + msL r := rfl
          have h2 : 1 ≤ msL r := msL_pos r
          omega
        have hm2 : msL r < N := by
          have h1 : msL (v :: r) = 1 + msV v + msL r := rfl
          have h2 : 1 ≤ msV v := msV_pos v
          omega
        have hk := (IH (msV v) hm1).1 v le_rfl hwf.1 f' (by omega)
        have hr := (IH (msL r) hm2).2 r le_rfl hwf.2 f' (by omega)
        have hplen : (payloadOf v).length < 2 ^ 64 := payloadOf_length_lt v hwf.1
        rw [serializeList, serializeVal_eq v,
          dList_step f' (tagOf v) (payloadOf v) (serializeList r) (tagOf_le v) hplen,
          hk, hr]
        rfl

/-- The codec round-trip at the `deserialize` entry point: the canonical
fuel is always sufficient for a serialized value. -/
theorem deserialize_serializeVal (v : Value) (hwf : wfVal v = true) :
    deserialize (serializeVal v) = .ok v := by
  have hfb := (fuel_bound (msV v)).1 v le_rfl
  have hpl := payloadOf_length_lt v hwf
  show dTop ((serializeVal v).length + 2) (serializeVal v) = .ok v
  rw [serializeVal_eq v]
  rw [show (enc (tagOf v) (payloadOf v)).length + 2 =
    ((enc (tagOf v) (payloadOf v)).length + 1) + 1 from rfl]
  rw [dTop_enc _ _ _ hpl]
  refine (roundtrip_main (msV v)).1 v le_rfl hwf _ ?_
  rw [serializeVal_eq v, enc_length] at hfb
  rw [enc_length]
  omega

/-- An unknown tag byte makes every `TAG_MAP` lookup raise
(`KeyError` → `DeserializingException`), at any recursion depth. -/
theorem dKind_unknown (f t : Nat) (p : List Nat) (ht : 9 < t) :
    dKind f t p = .error () := by
  obtain ⟨k, rfl⟩ : ∃ k, t = k + 10 := ⟨t - 10, by omega⟩
  cases f <;> rfl

/-- C6: for every serializable value of the ten protocol kinds,
deserialization of its serialization returns the value itself; for
mappings this is in particular equality as unordered key-value mappings. -/
theorem C6_codec_roundtrip (v : Value) (hwf : wfVal v = true) :
    deserialize (serializeVal v) = Except.ok v :=
  deserialize_serializeVal v hwf

/-- Witness for C6 at a concrete mapping value with an int key, a text key,
text, and null. -/
theorem C6_codec_roundtrip_witness :
    wfVal (Value.vdict [(Value.vint 1, Value.vstr [97]),
      (Value.vstr [98], Value.vnull)]) = true ∧
    deserialize (serializeVal (Value.vdict [(Value.vint 1, Value.vstr [97]),
      (Value.vstr [98], Value.vnull)])) =
      Except.ok (Value.vdict [(Value.vint 1, Value.vstr [97]),
        (Value.vstr [98], Value.vnull)]) := by
  have hwf : wfVal (Value.vdict [(Value.vint 1, Value.vstr [97]),
      (Value.vstr [98], Value.vnull)]) = true := by
    simp [wfVal, wfList, wfPairs, keysDistinct, pyEq, isHashable, serializeList,
      serializeVal, serializePairs, enc, toLE_length, serialize_int_length,
      intBitLen, natBitLen, utf8Encode, utf8EncodeChar, validScalar, Nat.log2]
  exact ⟨hwf, C6_codec_roundtrip _ hwf⟩

/-- C7 counterexample: a list element whose declared 8-byte length (5)
exceeds its actual payload (1 byte) does NOT fail deserialization — Python
slicing truncates silently and the element decodes. -/
theorem C7_counterexample :
    deserialize [4, 10, 0, 0, 0, 0, 0, 0, 0, 0, 5, 0, 0, 0, 0, 0, 0, 0, 1] =
        Except.ok (Value.vlist [Value.vint 1]) ∧
      ¬ deserialize [4, 10, 0, 0, 0, 0, 0, 0, 0, 0, 5, 0, 0, 0, 0, 0, 0, 0, 1] =
        Except.error () := by
  refine ⟨rfl, fun h => ?_⟩
  have h1 : deserialize [4, 10, 0, 0, 0, 0, 0, 0, 0, 0, 5, 0, 0, 0, 0, 0, 0, 0, 1] =
      Except.ok (Value.vlist [Value.vint 1]) := rfl
  rw [h1] at h
  exact Except.noConfusion h

/-- C7 amended: an unknown tag signals the typed deserialization error (as
does empty input), but a declared length exceeding the bytes remaining is
silently truncated by slicing, so such inputs can deserialize successfully
— shown by the same mismatched list element decoding to `[1]`. -/
theorem C7_amended :
    (∀ (t : Nat) (bs : List Nat), 9 < t → deserialize (t :: bs) = .error ()) ∧
    deserialize [] = .error () ∧
    deserialize [4, 10, 0, 0, 0, 0, 0, 0, 0, 0, 5, 0, 0, 0, 0, 0, 0, 0, 1] =
      Except.ok (Value.vlist [Value.vint 1]) := by
  refine ⟨?_, rfl, rfl⟩
  intro t bs ht
  show dTop ((t :: bs).length + 2) (t :: bs) = .error ()
  have h2 : (t :: bs).length + 2 = (bs.length + 2) + 1 := by simp
  rw [h2, dTop]
  exact dKind_unknown _ t _ ht

/-- Witness for C7's amended universal part at tag 10. -/
theorem C7_amended_witness :
    9 < 10 ∧ deserialize [10, 0, 0] = .error () :=
  ⟨by omega, C7_amended.1 10 [0, 0] (by omega)⟩

/-- C8 counterexample: the payload of the encoding of 1 is two bytes
`[1, 0]`, not the claimed `floor(bitlen/8) + 1 = 1` byte — even though 1
does fit, sign bit included, in a single signed byte. -/
theorem C8_counterexample :
    ¬ ((serialize_int 1).length = intBitLen 1 / 8 + 1) := by
  have h1 : (serialize_int 1).length = 2 := by
    simp [serialize_int_length, intBitLen, natBitLen, Nat.log2]
  have h2 : intBitLen 1 = 1 := by
    simp [intBitLen, natBitLen, Nat.log2]
  omega

/-- C8 amended: the payload of the codec's encoding of an integer `n` is
`n` in little-endian signed two's-complement using exactly
`(bitlen(n) + 7) / 8 + 1` bytes (one more than the minimum whenever the
bit length is not a multiple of eight), and decodes back to `n`. -/
theorem C8_amended (n : Int) :
    (serialize_int n).length = (intBitLen n + 7) / 8 + 1 ∧
    deserialize_int (serialize_int n) = n :=
  ⟨serialize_int_length n, deserialize_serialize_int n⟩

/-! ### Helper lemmas about the table and dict operations -/
theorem lookupT_setT (t : Table) (k : String) (s : SessionRec) :
    lookupT (setT t k s) k = some s := by
  induction t with
  | nil => simp [setT, lookupT]
  | cons a r ih =>
    obtain ⟨k0, s0⟩ := a
    by_cases hk : k0 = k
    · simp [setT, hk, lookupT]
    · simp [setT, hk, lookupT, ih]

theorem lookupT_eraseT (t : Table) (k : String) :
    lookupT (eraseT t k) k = none := by
  induction t with
  | nil => rfl
  | cons a r ih =>
    obtain ⟨k0, s0⟩ := a
    by_cases hk : k0 = k
    · simpa [eraseT, hk, lookupT] using ih
    · simpa [eraseT, hk, lookupT] using ih

theorem dictGetS_dictSetS_same (d : List (String × String)) (k v : String) :
    dictGetS (dictSetS d k v) k = some v := by
  induction d with
  | nil => simp [dictSetS, dictGetS]
  | cons a r ih =>
    obtain ⟨k0, v0⟩ := a
    by_cases hk : k0 = k
    · simp [dictSetS, hk, dictGetS]
    · simp [dictSetS, hk, dictGetS, ih]

theorem dictGetS_dictSetS_other (d : List (String × String)) (k v k' : String)
    (hne : ¬k' = k) :
    dictGetS (dictSetS d k v) k' = dictGetS d k' := by
  have hne2 : ¬k = k' := fun h => hne h.symm
  induction d with
  | nil => simp [dictSetS, dictGetS, hne2]
  | cons a r ih =>
    obtain ⟨k0, v0⟩ := a
    by_cases hk : k0 = k
    · subst hk
      simp [dictSetS, dictGetS, hne2]
    · simp [dictSetS, hk, dictGetS, ih]

theorem usersGet_usersSet (us : Users) (k : String) (v : UserDict) :
    usersGet (usersSet us k v) k = some v := by
  induction us with
  | nil => simp [usersSet, usersGet]
  | cons a r ih =>
    obtain ⟨k0, v0⟩ := a
    by_cases hk : k0 = k
    · simp [usersSet, hk, usersGet]
    · simp [usersSet, hk, usersGet, ih]

theorem isPrefixOf_length_le (a b : List Char) (h : a.isPrefixOf b = true) :
    a.length ≤ b.length := by
  induction a generalizing b with
  | nil => simp
  | cons x r ih =>
    cases b with
    | nil => simp [List.isPrefixOf] at h
    | cons y s =>
      simp only [List.isPrefixOf, Bool.and_eq_true] at h
      have := ih s h.2
      simp only [List.length_cons]
      omega

/-! ### Claim theorems: sandbox, sessions, users, connection -/
/-- C2 counterexample: with root `/srv/a` and the initial CWD, the client
path `../ab` sandbox-validates, yet it resolves to `/srv/ab` — a sibling of
the root that merely shares it as a string prefix, not a path inside it.
So neither "every validated path is inside R" nor "sibling-prefix escapes
are rejected" holds. -/
theorem C2_counterexample :
    validate_path ("/srv/a".data) ("/".data) (".".data) ("../ab".data) = true ∧
    get_full_path ("/srv/a".data) ("/".data) (".".data) ("../ab".data) =
      "/srv/ab".data ∧
    insideB (abspathP ("/".data) ("/srv/a".data))
      (get_full_path ("/srv/a".data) ("/".data) (".".data) ("../ab".data)) =
      false := by
  refine ⟨?_, ?_, ?_⟩ <;> decide

/-- C2 amended: a client path sandbox-validates exactly when the resolved
path has the resolved root as a *string* prefix (the length guard is
implied by the prefix).  An accepted path is therefore the root itself, or
genuinely inside the root (component boundary), or — the unsound case the
source admits — a path that extends the root without a separator, such as
a sibling directory whose name shares the root as a string prefix. -/
theorem C2_amended (root procCwd cur p : List Char) :
    (validate_path root procCwd cur p = true ↔
      (abspathP procCwd root).isPrefixOf (get_full_path root procCwd cur p) =
        true) ∧
    (validate_path root procCwd cur p = true →
      get_full_path root procCwd cur p = abspathP procCwd root ∨
      ((abspathP procCwd root) ++ ['/']).isPrefixOf
        (get_full_path root procCwd cur p) = true ∨
      (¬get_full_path root procCwd cur p = abspathP procCwd root ∧
        ((abspathP procCwd root) ++ ['/']).isPrefixOf
          (get_full_path root procCwd cur p) = false)) := by
  constructor
  · unfold validate_path
    constructor
    · intro hv
      by_contra hnp
      rw [if_pos (Or.inr hnp)] at hv
      exact Bool.false_ne_true hv
    · intro hpre
      have hlen := isPrefixOf_length_le _ _ hpre
      rw [if_neg]
      intro hor
      rcases hor with hlt | hnp
      · omega
      · exact hnp hpre
  · intro _
    by_cases h1 : get_full_path root procCwd cur p = abspathP procCwd root
    · exact Or.inl h1
    · by_cases h2 : ((abspathP procCwd root) ++ ['/']).isPrefixOf
          (get_full_path root procCwd cur p) = true
      · exact Or.inr (Or.inl h2)
      · exact Or.inr (Or.inr ⟨h1, Bool.eq_false_iff.mpr (fun hc => h2 hc)⟩)

/-- Witness for C2's amended statement at a genuinely-inside path. -/
theorem C2_amended_witness :
    (validate_path ("/srv/a".data) ("/".data) (".".data) ("b.txt".data) = true ↔
      (abspathP ("/".data) ("/srv/a".data)).isPrefixOf
        (get_full_path ("/srv/a".data) ("/".data) (".".data) ("b.txt".data)) =
        true) ∧
    (validate_path ("/srv/a".data) ("/".data) (".".data) ("b.txt".data) = true →
      get_full_path ("/srv/a".data) ("/".data) (".".data) ("b.txt".data) =
        abspathP ("/".data) ("/srv/a".data) ∨
      ((abspathP ("/".data) ("/srv/a".data)) ++ ['/']).isPrefixOf
        (get_full_path ("/srv/a".data) ("/".data) (".".data) ("b.txt".data)) =
        true ∨
      (¬get_full_path ("/srv/a".data) ("/".data) (".".data) ("b.txt".data) =
          abspathP ("/".data) ("/srv/a".data) ∧
        ((abspathP ("/".data) ("/srv/a".data)) ++ ['/']).isPrefixOf
          (get_full_path ("/srv/a".data) ("/".data) (".".data) ("b.txt".data)) =
          false)) :=
  C2_amended ("/srv/a".data) ("/".data) (".".data) ("b.txt".data)

/-- C3: the rename command resolves and sandbox-validates only its `path`
argument; the destination handed to `os.rename` is the raw client-supplied
`new_name`, here `/tmp/evil`, which lies outside the server root — yet the
command succeeds with code 0. -/
theorem C3_rename_raw_destination :
    RenameCommand.preform 0 [("S", wSession)] wSession wUsers
        ("/srv/root".data) ("/".data) ("f.txt".data) ("/tmp/evil".data)
        (fun q => q == "/srv/root/f.txt".data) =
      (0, some (.rename ("/srv/root/f.txt".data) ("/tmp/evil".data)),
        [("S", wSession)]) ∧
    (abspathP ("/".data) ("/srv/root".data)).isPrefixOf ("/tmp/evil".data) =
      false := by
  refine ⟨?_, ?_⟩ <;> decide

/-- C1: authentication failure is NOT final.  For an existing user and a
wrong password, `log_in` responds with code 14 but — the error branch has
no `return` — still generates a session ID, installs a fresh session in
the table, and attempts a success response; `admin` likewise responds 14
and then executes the admin command (here `clear_sessions`, which empties
the session table). -/
theorem C1_auth_failure_continues (h : String → String) (users : Users)
    (sessions : Table) (u pw ph : String) (d : UserDict) (sid : String)
    (now : Int) (ip : String)
    (hu : usersGet users u = some d)
    (hph : dictGetS d "password_hash" = some ph)
    (hne : ¬ph = h pw) :
    ((Connection.log_in h users sessions u pw none none true none sid now
        ip).responses.head? = some 14 ∧
      lookupT (Connection.log_in h users sessions u pw none none true none sid
        now ip).sessions sid = some (Session.create ip sid u now none)) ∧
    ((Connection.admin_clear_sessions h users sessions u pw).responses.head? =
        some 14 ∧
      (Connection.admin_clear_sessions h users sessions u pw).sessions = []) := by
  simp only [Connection.log_in, Connection.admin_clear_sessions, hu, hph,
    if_neg hne]
  refine ⟨⟨by trivial, ?_⟩, by trivial, by trivial⟩
  exact lookupT_setT sessions sid (Session.create ip sid u now none)

/-- Witness for C1 at a concrete users store and wrong password. -/
theorem C1_auth_failure_continues_witness :
    (usersGet wUsers "u" = some wUserRec ∧
      dictGetS wUserRec "password_hash" = some "X" ∧ ¬"X" = wHash "p") ∧
    (((Connection.log_in wHash wUsers [] "u" "p" none none true none "S" 0
        "1.2.3.4").responses.head? = some 14 ∧
      lookupT (Connection.log_in wHash wUsers [] "u" "p" none none true none
        "S" 0 "1.2.3.4").sessions "S" =
        some (Session.create "1.2.3.4" "S" "u" 0 none)) ∧
    ((Connection.admin_clear_sessions wHash wUsers [] "u" "p").responses.head? =
        some 14 ∧
      (Connection.admin_clear_sessions wHash wUsers [] "u" "p").sessions = [])) :=
  ⟨⟨by decide, by decide, by decide⟩,
    C1_auth_failure_continues wHash wUsers [] "u" "p" "X" wUserRec "S" 0
      "1.2.3.4" (by decide) (by decide) (by decide)⟩

/-- C4: after `update_user` with a `to_modify` containing `password`, the
stored `password_hash` field is UNCHANGED — the hash of the new password is
written under the never-read key `password` instead, so the user keeps
authenticating with the old password. -/
theorem C4_update_user_keeps_old_hash (h : String → String) (users : Users)
    (u p old : String) (d : UserDict)
    (hu : usersGet users u = some d)
    (hph : dictGetS d "password_hash" = some old) :
    ∃ users', CSHServer.update_user h users u [("password", p)] = some users' ∧
      ∃ d', usersGet users' u = some d' ∧
        dictGetS d' "password_hash" = some old ∧
        dictGetS d' "password" = some (h p) := by
  refine ⟨usersSet users u (dictSetS d "password" (h p)), ?_, ?_⟩
  · simp only [CSHServer.update_user, hu]
    rfl
  · refine ⟨dictSetS d "password" (h p), usersGet_usersSet users u _, ?_, ?_⟩
    · rw [dictGetS_dictSetS_other d "password" (h p) "password_hash"
        (by decide), hph]
    · exact dictGetS_dictSetS_same d "password" (h p)

/-- Witness for C4 at the concrete user `u` with old hash `X`. -/
theorem C4_update_user_keeps_old_hash_witness :
    (usersGet wUsers "u" = some wUserRec ∧
      dictGetS wUserRec "password_hash" = some "X") ∧
    (∃ users', CSHServer.update_user wHash wUsers "u" [("password", "newpw")] =
        some users' ∧
      ∃ d', usersGet users' "u" = some d' ∧
        dictGetS d' "password_hash" = some "X" ∧
        dictGetS d' "password" = some (wHash "newpw")) :=
  ⟨⟨by decide, by decide⟩,
    C4_update_user_keeps_old_hash wHash wUsers "u" "newpw" "X" wUserRec
      (by decide) (by decide)⟩

/-- C5 counterexample: a well-formed session command (ID 0, username and
session ID supplied) whose session ID is not in the table is answered with
code 16 ("Invalid session ID"), not code 1. -/
theorem C5_counterexample :
    Connection.handle_session_route 0 "u" "deadbeef" [] "1.2.3.4" =
        .reject 16 ∧
      ¬Connection.handle_session_route 0 "u" "deadbeef" [] "1.2.3.4" =
        .reject 1 := by
  refine ⟨?_, ?_⟩ <;> decide

/-- C5 amended: for every session-command request with command ID 0..13 and
username and session ID supplied, a session ID absent from the session
table (for example a replay after logout) is answered with code 16; code 1
is reserved for a username or peer-IP mismatch against a stored session
(and for expiry detected inside the command). -/
theorem C5_missing_session_code16 (cmdId : Int) (uname sid : String)
    (sessions : Table) (ip : String)
    (h0 : 0 ≤ cmdId) (h13 : cmdId ≤ 13)
    (hmiss : lookupT sessions sid = none) :
    Connection.handle_session_route cmdId uname sid sessions ip = .reject 16 := by
  unfold Connection.handle_session_route
  rw [if_neg (fun hc => hc ⟨h0, h13⟩)]
  simp only [hmiss]

/-- Witness for C5's amended statement: logout replay against an empty
session table. -/
theorem C5_missing_session_code16_witness :
    ((0 : Int) ≤ 0 ∧ (0 : Int) ≤ 13 ∧ lookupT [] "deadbeef" = none) ∧
    Connection.handle_session_route 0 "u" "deadbeef" [] "1.2.3.4" =
      .reject 16 :=
  ⟨⟨by omega, by omega, rfl⟩,
    C5_missing_session_code16 0 "u" "deadbeef" [] "1.2.3.4" (by omega)
      (by omega) rfl⟩

/-- C9: a validity check at `t0` strictly before `expires_at` succeeds and
renews the session so that the stored `expires_at` is at least `t0 + T`
(with `T` the session's own `expire_after`); a check that finds `t0`
strictly past `expires_at` removes the session from the table and reports
invalid. -/
theorem C9_ttl_renewal (now e T : Int) (sessions : Table) (s : SessionRec)
    (hin : ¬lookupT sessions s.session_id = none)
    (hexp : s.expires = some e) (hT : s.expire_after = some T) :
    (now < e →
      (Session.validate now sessions s).1 = true ∧
      ∃ e', Option.bind (lookupT (Session.validate now sessions s).2
          s.session_id) (fun q => q.expires) = some e' ∧ now + T ≤ e') ∧
    (e < now →
      (Session.validate now sessions s).1 = false ∧
      lookupT (Session.validate now sessions s).2 s.session_id = none) := by
  have hnn : (lookupT sessions s.session_id).isNone = false := by
    rcases hl : lookupT sessions s.session_id with _ | s0
    · exact absurd hl hin
    · simp
  constructor
  · intro hlt
    have hng : ¬now > e := by omega
    simp only [Session.validate, hnn, Bool.false_eq_true, if_false, hexp,
      if_neg hng]
    refine ⟨by trivial, now + T, ?_, le_refl _⟩
    rw [lookupT_setT]
    simp [hT]
  · intro hgt
    have hg : now > e := by omega
    simp only [Session.validate, hnn, Bool.false_eq_true, if_false, hexp,
      if_pos hg]
    exact ⟨by trivial, lookupT_eraseT sessions s.session_id⟩

/-- Witness for C9: a live session with TTL 50 and expiry 100, checked at
time 10. -/
theorem C9_ttl_renewal_witness :
    (Session.validate 10 [("S", wSessionTTL)] wSessionTTL).1 = true ∧
    ∃ e', Option.bind (lookupT (Session.validate 10 [("S", wSessionTTL)]
        wSessionTTL).2 wSessionTTL.session_id) (fun q => q.expires) =
      some e' ∧ (10 : Int) + 50 ≤ e' :=
  (C9_ttl_renewal 10 100 50 [("S", wSessionTTL)] wSessionTTL (by decide) rfl
    rfl).1 (by omega)

/-- C10: the logout command's final result code is 0 whenever the session
validates, even when deleting the table entry raises — the code-2 result
assigned in the error branch is unconditionally overwritten by
`finish({'code': 0})`, so code 2 never reaches the client. -/
theorem C10_logout_code2_overwritten (now : Int) (sessions : Table)
    (s : SessionRec) (delFails : Bool) :
    (LogOutCommand.preform now sessions s delFails).1 =
      some (if (Session.validate now sessions s).1 then 0 else 1) := by
  cases hb : (Session.validate now sessions s).1 <;>
    simp [LogOutCommand.preform, finishData, hb]

end CSH

